import Mathlib

set_option maxRecDepth 8000

/-! Verification development for the dphutils image-processing module: a shallow
embedding of its array primitives (scale, fft_pad, _calc_pad, radial_profile),
its spectral convolution routine (fftconvolve) and its accelerated
Richardson-Lucy deconvolution loop (richardson_lucy), over exact rational
arithmetic.  Machine floats are modelled by rationals; division by zero yields
the rational junk value 0 where IEEE arithmetic would produce NaN or Inf. -/

/-- Minimum entry of a list of rationals, 0 on the empty list; models numpy
nanmin on finite data. -/
def listMin : List ℚ → ℚ
  | [] => 0
  | x :: xs => xs.foldl min x

/-- Maximum entry of a list of rationals, 0 on the empty list; models numpy
nanmax on finite data. -/
def listMax : List ℚ → ℚ
  | [] => 0
  | x :: xs => xs.foldl max x

/-- Embedding of scale, dtype=None branch: min-max rescaling onto the target
range 0..1.  The zero-range case dmax = dmin divides by zero, as in the
source. -/
def scale (data : List ℚ) : List ℚ :=
  let dmin := listMin data
  let dmax := listMax data
  let tmin : ℚ := 0
  let tmax : ℚ := 1
  data.map (fun x => (x - dmin) / (dmax - dmin) * (tmax - tmin) + tmin)

/-- Insert a rational into a sorted list, keeping it sorted. -/
def insertSorted (x : ℚ) : List ℚ → List ℚ
  | [] => [x]
  | y :: ys => if x ≤ y then x :: y :: ys else y :: insertSorted x ys

/-- Insertion sort for lists of rationals. -/
def sortQ (l : List ℚ) : List ℚ := l.foldr insertSorted []

/-- Median of a list as numpy computes it: middle entry of the sorted data for
odd length, mean of the two middle entries for even length. -/
def npMedian (l : List ℚ) : ℚ :=
  let s := sortQ l
  let m := s.length
  if m % 2 = 1 then s.getD (m / 2) 0
  else (s.getD (m / 2 - 1) 0 + s.getD (m / 2) 0) / 2

/-- Embedding of _calc_pad: the required padding width is split with the floor
half second, so the pair is (larger half, smaller half); Python floor division
is Int.fdiv. -/
def _calc_pad (oldnum newnum : ℤ) : ℤ × ℤ :=
  let width := newnum - oldnum
  let pad1 := Int.fdiv width 2
  let pad2 := width - pad1
  (pad2, pad1)

/-- Bit length of a natural number, as Python int.bit_length. -/
def bitLength (m : ℕ) : ℕ := if m = 0 then 0 else Nat.log2 m + 1

/-- Embedding of nextpow2: 1 shifted left by the bit length of n - 1. -/
def nextpow2 (n : ℕ) : ℕ := 2 ^ bitLength (n - 1)

/-- Fill policies of numpy pad exercised by this module. -/
inductive PadMode where
  | constant : PadMode
  | median : PadMode
deriving DecidableEq

/-- Embedding of fft_pad on rank-1 data: pad to the requested length (next
power of two when no width is given), filling with 0 in constant mode and with
the data median in median mode; the pad amounts come from _calc_pad, larger
half in front. -/
def fft_pad (array : List ℚ) (pad_width : Option ℕ) (mode : PadMode) : List ℚ :=
  let oldshape := array.length
  let newshape := match pad_width with
    | none => nextpow2 oldshape
    | some w => w
  let padding := _calc_pad (oldshape : ℤ) (newshape : ℤ)
  let fill := match mode with
    | PadMode.constant => 0
    | PadMode.median => npMedian array
  List.replicate padding.1.toNat fill ++ array ++ List.replicate padding.2.toNat fill

/-- The PSF normalization pipeline of richardson_lucy, source lines 324-325:
min-max scale, pad to the image length with numpy pad mode constant (zero
fill), then divide by the total so the result sums to one. -/
def psf_norm (psf : List ℚ) (n : ℕ) : List ℚ :=
  let padded := fft_pad (scale psf) (some n) PadMode.constant
  padded.map (fun x => x / padded.sum)

/-- The PSF normalization pipeline as the specification words it: identical to
psf_norm except that the padding replicates the median value of the array at
the boundary instead of zero.  Stated only to compare against psf_norm. -/
def psf_norm_median_claim (psf : List ℚ) (n : ℕ) : List ℚ :=
  let padded := fft_pad (scale psf) (some n) PadMode.median
  padded.map (fun x => x / padded.sum)

/-- Strip a factor f from n repeatedly (fuelled). -/
def stripAll (f : ℕ) : ℕ → ℕ → ℕ
  | 0, n => n
  | fuel + 1, n => if 0 < n ∧ n % f = 0 then stripAll f fuel (n / f) else n

/-- A positive number is 5-smooth when it has no prime factor beyond 5. -/
def is5smooth (n : ℕ) : Bool :=
  n != 0 && stripAll 5 n (stripAll 3 n (stripAll 2 n n)) == 1

/-- Modelled from the spec: the scipy helper next_fast_len, the smallest
composite-friendly (5-smooth) FFT size at or above n; the search range n..2n
always contains a power of two. -/
def next_fast_len (n : ℕ) : ℕ :=
  match (List.range' n (n + 1)).find? is5smooth with
  | some m => m
  | none => n

/-- Inverse FFT shift of rank-1 data: entry k of the result is entry
(k + n / 2) mod n of the input. -/
def ifftshiftL (l : List ℚ) : List ℚ :=
  (List.range l.length).map (fun k => l.getD ((k + l.length / 2) % l.length) 0)

/-- Circular convolution of two rank-1 arrays of the same length, the exact
value of irfftn (rfftn a * rfftn b) at that length. -/
def cconvL (a b : List ℚ) : List ℚ :=
  let n := a.length
  (List.range n).map (fun i =>
    ((List.range n).map (fun k => a.getD k 0 * b.getD ((i + n - k) % n) 0)).sum)

/-- Modelled from the spec: direct (spatial-domain) full linear convolution,
output length s1 + s2 - 1, the reference the spec compares fftconvolve to. -/
def directConvFull (a b : List ℚ) : List ℚ :=
  (List.range (a.length + b.length - 1)).map (fun i =>
    ((List.range a.length).map (fun k =>
      if k ≤ i ∧ i - k < b.length then a.getD k 0 * b.getD (i - k) 0 else 0)).sum)

/-! Rank-n arrays for the Richardson-Lucy loop: functions from Fin n, with the
pointwise arithmetic instances of pi types. -/

/-- A rank-1 array of fixed length n over exact rationals. -/
abbrev Arr (n : ℕ) := Fin n → ℚ

/-- Clamp negative entries to zero, the in-place update a[a < 0] = 0. -/
def clampNeg {n : ℕ} (a : Arr n) : Arr n := fun i => if a i < 0 then 0 else a i

/-- Embedding of enusure_positive at its default eps = 0: clamp negative
entries to zero (the finiteness assertion is vacuous over rationals). -/
def enusure_positive {n : ℕ} (a : Arr n) : Arr n := fun i => if a i < 0 then 0 else a i

/-- The clip branch of richardson_lucy: values above 1 become 1, below -1
become -1. -/
def clipPM {n : ℕ} (a : Arr n) : Arr n :=
  fun i => if 1 < a i then 1 else if a i < -1 then -1 else a i

/-- Dot product of two arrays viewed as flattened vectors. -/
def dotA {n : ℕ} (a b : Arr n) : ℚ := ∑ i, a i * b i

/-- Circular convolution on fixed-length arrays. -/
def cconvA {n : ℕ} (a b : Arr n) : Arr n := fun i => ∑ k, a k * b (i - k)

/-- Circular correlation on fixed-length arrays, the value of the conjugated
spectrum product for real data. -/
def ccorrA {n : ℕ} (a b : Arr n) : Arr n := fun i => ∑ k, a k * b (i + k)

/-- Inverse FFT shift on fixed-length arrays. -/
def ifftshiftA {n : ℕ} (a : Arr n) : Arr n :=
  fun k => a ⟨(k.val + n / 2) % n, Nat.mod_lt _ k.pos⟩

/-- A unit impulse (identity kernel) of length n: 1 at the centre index n / 2,
0 elsewhere. -/
def impulseL (n : ℕ) : List ℚ :=
  (List.range n).map (fun k => if k = n / 2 then (1 : ℚ) else 0)

/-- The loop state of richardson_lucy: the retained estimate history, the two
retained residuals, the predicted image, the persisting second-order
difference, and the step-size coefficient computed by the latest iteration. -/
structure RLState (n : ℕ) where
  u_tm2 : Option (Arr n)
  u_tm1 : Option (Arr n)
  u_t : Option (Arr n)
  g_tm2 : Option (Arr n)
  g_tm1 : Option (Arr n)
  y_t : Arr n
  h2_t : Arr n
  alpha : ℚ

/-- The state before the first iteration: no estimates, no residuals, the
predicted image is the input image.  h2_t starts at 0, matching the value every
path reads (the first iteration always assigns it before use). -/
def rlInit {n : ℕ} (image : Arr n) : RLState n :=
  { u_tm2 := none, u_tm1 := none, u_t := none, g_tm2 := none, g_tm1 := none,
    y_t := image, h2_t := 0, alpha := 0 }

/-- One iteration of the richardson_lucy loop (source lines 335-388).  The OTF
application steps are the operator pair blur (spectrum times OTF) and adj
(spectrum times conjugated OTF); i is the loop index.  When alpha is nonzero
and the prediction order is 0, h2_t is not reassigned and keeps its previous
value, exactly as the Python locals do.  Over rationals a zero denominator in
the alpha quotient yields 0, matching the source's reset of a non-finite alpha
to 0 (a zero denominator forces a zero numerator, so the float code computes
0 / 0 there). -/
def rlStep {n : ℕ} (blur adj : Arr n → Arr n) (image : Arr n)
    (prediction_order : ℕ) (i : ℕ) (s : RLState n) : RLState n :=
  let reblur := blur s.y_t
  let im_quot := image / reblur
  let estimate := adj im_quot
  let u_tp1 := clampNeg (s.y_t * estimate)
  let g_new := u_tp1 - s.y_t
  let alpha : ℚ :=
    if 1 < i then
      let g2 := s.g_tm1.getD 0
      max (min (dotA g_new g2 / dotA g2 g2) 1) 0
    else 0
  let hs : Arr n × Arr n :=
    if alpha ≠ 0 then
      if 0 < prediction_order then
        let h1_t := u_tp1 - s.u_t.getD 0
        if 1 < prediction_order then
          (h1_t, u_tp1 - (2 : ℚ) • s.u_t.getD 0 + s.u_tm1.getD 0)
        else (h1_t, 0)
      else (0, s.h2_t)
    else (0, 0)
  let y_next := enusure_positive (u_tp1 + alpha • hs.1 + (alpha ^ 2 / 2) • hs.2)
  { u_tm2 := s.u_tm1, u_tm1 := s.u_t, u_t := some u_tp1,
    g_tm2 := s.g_tm1, g_tm1 := some g_new,
    y_t := y_next, h2_t := hs.2, alpha := alpha }

/-- The richardson_lucy loop state after i iterations. -/
def rlState {n : ℕ} (blur adj : Arr n → Arr n) (image : Arr n)
    (prediction_order : ℕ) : ℕ → RLState n
  | 0 => rlInit image
  | i + 1 => rlStep blur adj image prediction_order i
      (rlState blur adj image prediction_order i)

/-- The residual of iteration j, g(j) = u(j+1) - y(j), as the specification
defines it: the new estimate of iteration j minus the predicted image it was
computed from. -/
def gResid {n : ℕ} (blur adj : Arr n → Arr n) (image : Arr n)
    (prediction_order : ℕ) (j : ℕ) : Arr n :=
  ((rlState blur adj image prediction_order (j + 1)).u_t).getD 0 -
    (rlState blur adj image prediction_order j).y_t

/-- The forward OTF application of richardson_lucy: the PSF is normalized by
psf_norm and inverse-shifted, and the unitary FFT pair (modelled from the
spec: an energy-preserving transform pair, absent from the sources) turns the
spectrum multiply into a circular convolution scaled by the reciprocal of s,
the square root of the transform size. -/
def otf_blur (n : ℕ) (psf : List ℚ) (s : ℚ) : Arr n → Arr n :=
  fun y => (1 / s) • cconvA (ifftshiftA (fun i : Fin n => (psf_norm psf n).getD i.val 0)) y

/-- The adjoint OTF application of richardson_lucy, a conjugated spectrum
multiply: circular correlation with the shifted normalized PSF, at the same
unitary scale. -/
def otf_adj (n : ℕ) (psf : List ℚ) (s : ℚ) : Arr n → Arr n :=
  fun r => (1 / s) • ccorrA (ifftshiftA (fun i : Fin n => (psf_norm psf n).getD i.val 0)) r

/-- Embedding of richardson_lucy for rank-1 data and the default win_func =
None (no window): run the loop for the given iteration count with the OTF
operator pair, then return the last estimate, clipped to -1..1 when clip is
set.  The result is None when the iteration count is 0, as the Python code
then returns the unset estimate. -/
def richardson_lucy {n : ℕ} (image : Arr n) (psf : List ℚ) (iterations : ℕ)
    (clip : Bool) (prediction_order : ℕ) (s : ℚ) : Option (Arr n) :=
  let st := rlState (otf_blur n psf s) (otf_adj n psf s) image prediction_order iterations
  st.u_t.map (fun u => if clip then clipPM u else u)

/-- Modelled from the spec: the unaccelerated (vanilla) Richardson-Lucy
iteration, u(0) = image and u(i+1) = clamp(u(i) * adj(image / blur(u(i)))),
with no prediction step.  Stated as the reference the acceleration at
prediction order 0 is compared to. -/
def vanillaRL {n : ℕ} (blur adj : Arr n → Arr n) (image : Arr n) : ℕ → Arr n
  | 0 => image
  | i + 1 =>
    let u := vanillaRL blur adj image i
    clampNeg (u * adj (image / blur u))

/-- A concrete single-pixel blur operator for exercising the loop: pointwise
increment. -/
def blurP1 : Arr 1 → Arr 1 := fun y => fun i => y i + 1

/-- A concrete identity adjoint operator. -/
def adjId : Arr 1 → Arr 1 := fun r => r

/-- A concrete single-pixel image of value 4. -/
def img4 : Arr 1 := fun _ => 4

/-- A concrete two-pixel non-negative image. -/
def img2 : Arr 2 := fun i => if i = 0 then 1 else 2

/-! The fftconvolve routine over shape-carrying array descriptors.  The guard
chain and mode dispatch are rank-generic as in the source; the spectral core is
a parameter, instantiated at rank 1 by core1 below. -/

/-- An N-dimensional numpy array: its shape and its row-major data. -/
structure NDArr where
  shape : List ℕ
  data : List ℚ
deriving DecidableEq

/-- Number of dimensions (rank). -/
def NDArr.ndim (a : NDArr) : ℕ := a.shape.length

/-- Total number of entries, the product of the shape. -/
def NDArr.size (a : NDArr) : ℕ := a.shape.prod

/-- Modelled from the spec: the scipy helper _inputs_swap_needed, true exactly
when valid mode needs the larger operand first. -/
def _inputs_swap_needed (mode : String) (s1 s2 : List ℕ) : Bool :=
  mode == "valid" && !((s1.zip s2).all (fun p => decide (p.2 ≤ p.1)))

/-- Row-major multi-index of flat index i in the given shape. -/
def multiIndex (shape : List ℕ) (i : ℕ) : List ℕ :=
  match shape with
  | [] => []
  | _ :: rest => (i / rest.prod) :: multiIndex rest (i % rest.prod)

/-- Whether a multi-index lies in the centred crop from shape cur to shape
new: per axis the start is (cur - new) / 2, scipy's _centered. -/
def inCrop (cur new mi : List ℕ) : Bool :=
  ((cur.zip new).zip mi).all (fun p =>
    decide ((p.1.1 - p.1.2) / 2 ≤ p.2 ∧ p.2 < (p.1.1 - p.1.2) / 2 + p.1.2))

/-- Modelled from the spec: scipy's _centered, the centred crop of an array to
a new shape. -/
def centeredND (a : NDArr) (newshape : List ℕ) : NDArr :=
  ⟨newshape,
    ((List.range a.size).filter
      (fun i => inCrop a.shape newshape (multiIndex a.shape i))).map
      (fun i => a.data.getD i 0)⟩

/-- Embedding of fftconvolve, source lines 407-467: the guard chain (scalar
inputs, rank mismatch, empty inputs) runs first, then the spectral core
computes the padded result, then the mode dispatch crops it, erroring on an
unrecognized mode.  The spectral core is a parameter so the guard and dispatch
logic stays rank-generic. -/
def fftconvolve (core : NDArr → NDArr → NDArr) (in1 in2 : NDArr)
    (mode : String) : Except String NDArr :=
  if in1.ndim = 0 ∧ in2.ndim = 0 then
    Except.ok ⟨[], [in1.data.headD 0 * in2.data.headD 0]⟩
  else if ¬in1.ndim = in2.ndim then
    Except.error ("in1 and in2 should have the same dimensionality")
  else if in1.size = 0 ∨ in2.size = 0 then
    Except.ok ⟨[0], []⟩
  else
    let swapped := _inputs_swap_needed mode in1.shape in2.shape
    let a1 := if swapped then in2 else in1
    let a2 := if swapped then in1 else in2
    let ret := core a1 a2
    if mode = "full" then Except.ok ret
    else if mode = "same" then Except.ok (centeredND ret a1.shape)
    else if mode = "valid" then
      Except.ok (centeredND ret (List.zipWith (fun x y => x - y + 1) a1.shape a2.shape))
    else Except.error ("Acceptable mode flags are valid, same, or full.")

/-- The rank-1 spectral core of fftconvolve at the default all-ones window:
both operands are padded to the common fast FFT size (the first with the
median fill fft_pad defaults to, the second with zeros and then
inverse-shifted), the spectra are multiplied - exactly a circular convolution -
and the result is cut back to the larger operand extent by fslice. -/
def core1 (a b : NDArr) : NDArr :=
  let s1 := a.shape.headD 0
  let s2 := b.shape.headD 0
  let sh := max s1 s2
  let fsh := next_fast_len sh
  let p1 := fft_pad a.data (some fsh) PadMode.median
  let p2 := ifftshiftL (fft_pad b.data (some fsh) PadMode.constant)
  ⟨[sh], (cconvL p1 p2).take sh⟩

/-- fftconvolve on rank-1 arrays, the skeleton instantiated with the rank-1
spectral core. -/
def fftconvolve1 (a b : List ℚ) (mode : String) : Except String NDArr :=
  fftconvolve core1 ⟨[a.length], a⟩ ⟨[b.length], b⟩ mode

/-- Embedding of the rank precondition of richardson_lucy, the assert on
source lines 315-316: image and PSF must have the same number of
dimensions. -/
def richardson_lucy_check (image psf : NDArr) : Except String Unit :=
  if psf.ndim = image.ndim then Except.ok ()
  else Except.error ("image and psf do not have the same number of dimensions")

/-! The radial profile, embedded for real rank-2 data, integer centres and
binsize 1 (the setting of the claims; complex data recurses on the parts and
other binsizes only rescale the rounded radius). -/

/-- Floor of the square root of a natural number, by bounded search: the
largest m at most k with m * m at most k. -/
def natSqrt (k : ℕ) : ℕ :=
  ((List.range (k + 1)).filter (fun m => decide (m * m ≤ k))).foldl max 0

/-- Nearest integer to the square root of a natural number; exact, and never
ambiguous at half-integers since the square root of an integer is never
exactly half-odd. -/
def roundSqrtNat (k : ℕ) : ℕ :=
  let m := natSqrt k
  if m * m + m < k then m + 1 else m

/-- Square root on rationals, exact on perfect squares - the only values the
radial-profile claims evaluate it at - and junk elsewhere, standing for the
real square root. -/
def ratSqrt (q : ℚ) : ℚ := (natSqrt q.num.toNat : ℚ) / (natSqrt q.den : ℚ)

/-- All pixel coordinates of an h by w image, row-major. -/
def pixels (h w : ℕ) : List (ℕ × ℕ) :=
  (List.range h).map (fun y => (List.range w).map (fun x => (y, x))) |>.flatten

/-- Radial bin of a pixel about the centre (y0, x0) at binsize 1: the rounded
Euclidean distance. -/
def rIndex (y0 x0 : ℤ) (p : ℕ × ℕ) : ℕ :=
  roundSqrtNat ((((p.2 : ℤ) - x0) ^ 2 + ((p.1 : ℤ) - y0) ^ 2).toNat)

/-- Pixel count of radial bin b: numpy bincount of the rounded radii. -/
def binCount (h w : ℕ) (y0 x0 : ℤ) (b : ℕ) : ℕ :=
  ((pixels h w).filter (fun p => rIndex y0 x0 p == b)).length

/-- Sum of the data over radial bin b: numpy bincount of the radii weighted by
the data. -/
def binSum (h w : ℕ) (data : ℕ → ℕ → ℚ) (y0 x0 : ℤ) (b : ℕ) : ℚ :=
  (((pixels h w).filter (fun p => rIndex y0 x0 p == b)).map
    (fun p => data p.1 p.2)).sum

/-- Number of radial bins: the largest occurring bin index plus one, the
length numpy bincount returns. -/
def numBins (h w : ℕ) (y0 x0 : ℤ) : ℕ :=
  match (pixels h w).map (rIndex y0 x0) with
  | [] => 0
  | r :: rs => rs.foldl max r + 1

/-- Embedding of radial_profile for real rank-2 data at binsize 1 and integer
centre: the per-bin mean of the data and the per-bin standard deviation,
sqrt of (mean of squares minus squared mean), over the rounded radii. -/
def radial_profile (h w : ℕ) (data : ℕ → ℕ → ℚ) (y0 x0 : ℤ) : List ℚ × List ℚ :=
  let nb := numBins h w y0 x0
  let mean := (List.range nb).map (fun b =>
    binSum h w data y0 x0 b / (binCount h w y0 x0 b : ℚ))
  let std := (List.range nb).map (fun b =>
    ratSqrt (binSum h w (fun y x => data y x ^ 2) y0 x0 b / (binCount h w y0 x0 b : ℚ)
      - (binSum h w data y0 x0 b / (binCount h w y0 x0 b : ℚ)) ^ 2))
  (mean, std)

/-! Helper lemmas about listMin and listMax. -/

theorem foldl_min_le_init (xs : List ℚ) (a : ℚ) : xs.foldl min a ≤ a := by
  induction xs generalizing a with
  | nil => exact le_refl a
  | cons y ys ih => exact le_trans (ih (min a y)) (min_le_left a y)

theorem foldl_min_le_mem (xs : List ℚ) (a b : ℚ) (hb : b ∈ xs) : xs.foldl min a ≤ b := by
  induction xs generalizing a with
  | nil => cases hb
  | cons y ys ih =>
    rcases List.mem_cons.1 hb with h | h
    · subst h
      exact le_trans (foldl_min_le_init ys (min a b)) (min_le_right a b)
    · exact ih (min a y) h

theorem foldl_min_mem (xs : List ℚ) (a : ℚ) : xs.foldl min a = a ∨ xs.foldl min a ∈ xs := by
  induction xs generalizing a with
  | nil => exact Or.inl rfl
  | cons y ys ih =>
    rcases ih (min a y) with h | h
    · rcases min_choice a y with h2 | h2
      · exact Or.inl (by rw [List.foldl_cons, h, h2])
      · exact Or.inr (by rw [List.foldl_cons, h, h2]; exact List.mem_cons_self y ys)
    · exact Or.inr (List.mem_cons_of_mem y h)

theorem listMin_le_of_mem (l : List ℚ) (a : ℚ) (h : a ∈ l) : listMin l ≤ a := by
  cases l with
  | nil => cases h
  | cons x xs =>
    rcases List.mem_cons.1 h with h2 | h2
    · subst h2; exact foldl_min_le_init xs a
    · exact foldl_min_le_mem xs x a h2

theorem listMin_mem (l : List ℚ) (h : l ≠ []) : listMin l ∈ l := by
  cases l with
  | nil => exact absurd rfl h
  | cons x xs =>
    rcases foldl_min_mem xs x with h2 | h2
    · rw [listMin, h2]; exact List.mem_cons_self x xs
    · exact List.mem_cons_of_mem x (by rw [listMin]; exact h2)

theorem foldl_max_init_le (xs : List ℚ) (a : ℚ) : a ≤ xs.foldl max a := by
  induction xs generalizing a with
  | nil => exact le_refl a
  | cons y ys ih => exact le_trans (le_max_left a y) (ih (max a y))

theorem foldl_max_mem_le (xs : List ℚ) (a b : ℚ) (hb : b ∈ xs) : b ≤ xs.foldl max a := by
  induction xs generalizing a with
  | nil => cases hb
  | cons y ys ih =>
    rcases List.mem_cons.1 hb with h | h
    · subst h
      exact le_trans (le_max_right a b) (foldl_max_init_le ys (max a b))
    · exact ih (max a y) h

theorem foldl_max_mem (xs : List ℚ) (a : ℚ) : xs.foldl max a = a ∨ xs.foldl max a ∈ xs := by
  induction xs generalizing a with
  | nil => exact Or.inl rfl
  | cons y ys ih =>
    rcases ih (max a y) with h | h
    · rcases max_choice a y with h2 | h2
      · exact Or.inl (by rw [List.foldl, h, h2])
      · exact Or.inr (by rw [List.foldl, h, h2]; exact List.mem_cons_self y ys)
    · exact Or.inr (List.mem_cons_of_mem y h)

theorem le_listMax_of_mem (l : List ℚ) (a : ℚ) (h : a ∈ l) : a ≤ listMax l := by
  cases l with
  | nil => cases h
  | cons x xs =>
    rcases List.mem_cons.1 h with h2 | h2
    · subst h2; exact foldl_max_init_le xs a
    · exact foldl_max_mem_le xs x a h2

theorem listMax_mem (l : List ℚ) (h : l ≠ []) : listMax l ∈ l := by
  cases l with
  | nil => exact absurd rfl h
  | cons x xs =>
    rcases foldl_max_mem xs x with h2 | h2
    · rw [listMax, h2]; exact List.mem_cons_self x xs
    · exact List.mem_cons_of_mem x (by rw [listMax]; exact h2)

/-- The entries of scale lie between its extremes, rescaled. -/
theorem scale_eq_map (l : List ℚ) :
    scale l = l.map (fun x => (x - listMin l) / (listMax l - listMin l)) := by
  unfold scale
  exact List.map_congr_left (fun x _ => by ring)

/-- Every entry of a scaled array lies in the unit interval when the data has
a genuine range. -/
theorem scale_bounds (l : List ℚ) (h1 : listMin l < listMax l) :
    ∀ x ∈ scale l, 0 ≤ x ∧ x ≤ 1 := by
  have hd : (0 : ℚ) < listMax l - listMin l := sub_pos.2 h1
  intro x hx
  rw [scale_eq_map] at hx
  obtain ⟨a, ha, rfl⟩ := List.mem_map.1 hx
  constructor
  · exact div_nonneg (sub_nonneg.2 (listMin_le_of_mem l a ha)) (le_of_lt hd)
  · exact (div_le_one hd).2 (sub_le_sub_right (le_listMax_of_mem l a ha) _)

/-- The maximum of a ranged array scales to exactly 1. -/
theorem one_mem_scale (l : List ℚ) (h0 : l ≠ []) (h1 : listMin l < listMax l) :
    (1 : ℚ) ∈ scale l := by
  rw [scale_eq_map]
  have : (listMax l - listMin l) / (listMax l - listMin l) = 1 :=
    div_self (ne_of_gt (sub_pos.2 h1))
  exact this ▸ List.mem_map_of_mem _ (listMax_mem l h0)

/-- The minimum of a ranged array scales to exactly 0. -/
theorem zero_mem_scale (l : List ℚ) (h0 : l ≠ []) :
    (0 : ℚ) ∈ scale l := by
  rw [scale_eq_map]
  have : (listMin l - listMin l) / (listMax l - listMin l) = 0 := by
    rw [sub_self, zero_div]
  exact this ▸ List.mem_map_of_mem _ (listMin_mem l h0)

/-- Scaling a non-empty array gives a non-empty array. -/
theorem scale_ne_nil (l : List ℚ) (h0 : l ≠ []) : scale l ≠ [] := by
  rw [scale_eq_map]
  exact fun h => h0 (List.map_eq_nil_iff.1 h)

/-- C8: corrected.  For every non-empty array without NaN values whose minimum
and maximum differ, scale with no dtype returns values inside the unit
interval, with maximum exactly 1 and minimum exactly 0.  (The original claim,
quantified over all arrays, fails on constant arrays, where the zero-range
division degenerates; see the counterexample.) -/
theorem scale_unit_range (l : List ℚ) (h0 : l ≠ []) (h1 : listMin l < listMax l) :
    (∀ x ∈ scale l, 0 ≤ x ∧ x ≤ 1) ∧
      listMax (scale l) = 1 ∧ listMin (scale l) = 0 := by
  have hbounds := scale_bounds l h1
  have hne := scale_ne_nil l h0
  refine ⟨hbounds, le_antisymm ?_ (le_listMax_of_mem _ _ (one_mem_scale l h0 h1)),
    le_antisymm (listMin_le_of_mem _ _ (zero_mem_scale l h0)) ?_⟩
  · exact (hbounds _ (listMax_mem _ hne)).2
  · exact (hbounds _ (listMin_mem _ hne)).1

/-- Witness for C8 at the concrete array 1, 3. -/
theorem scale_unit_range_witness :
    (([1, 3] : List ℚ) ≠ [] ∧ listMin [1, 3] < listMax [1, 3]) ∧
      ((∀ x ∈ scale [1, 3], 0 ≤ x ∧ x ≤ 1) ∧
        listMax (scale [1, 3]) = 1 ∧ listMin (scale [1, 3]) = 0) :=
  ⟨⟨by decide, by decide⟩, scale_unit_range [1, 3] (by decide) (by decide)⟩

/-- C8 counterexample: on the constant, NaN-free array 1, 1 the zero-range
division makes every output entry the junk value (NaN in floats, 0 over
rationals), so the maximum of the output is not 1. -/
theorem scale_constant_counterexample :
    scale [1, 1] = [0, 0] ∧ listMax (scale [1, 1]) ≠ 1 := by
  have h : scale [1, 1] = [0, 0] := by norm_num [scale, listMin, listMax]
  exact ⟨h, by rw [h]; decide⟩

/-- C7: corrected.  For strictly growing sizes, _calc_pad splits the required
padding into two halves that differ by at most one and sum to the full width,
and when the width is odd the larger half goes first (before the array), the
smaller second.  (The original claim said the smaller half goes first; the
source returns (pad2, pad1) with pad2 the ceiling half, see the
counterexample.) -/
theorem _calc_pad_split (o n : ℤ) (_h : o < n) :
    (_calc_pad o n).1 + (_calc_pad o n).2 = n - o ∧
      (_calc_pad o n).2 ≤ (_calc_pad o n).1 ∧
      (_calc_pad o n).1 ≤ (_calc_pad o n).2 + 1 := by
  simp only [_calc_pad]
  rw [Int.fdiv_eq_ediv _ (by omega : (0 : ℤ) ≤ 2)]
  omega

/-- Witness for C7 at the sizes 10 and 17. -/
theorem _calc_pad_split_witness :
    (10 : ℤ) < 17 ∧
      ((_calc_pad 10 17).1 + (_calc_pad 10 17).2 = 17 - 10 ∧
        (_calc_pad 10 17).2 ≤ (_calc_pad 10 17).1 ∧
        (_calc_pad 10 17).1 ≤ (_calc_pad 10 17).2 + 1) :=
  ⟨by decide, _calc_pad_split 10 17 (by decide)⟩

/-- C7 counterexample: for sizes 10 and 17 the required padding 7 is odd and
_calc_pad returns (4, 3), so the larger half goes first, not the smaller. -/
theorem _calc_pad_smaller_first_counterexample :
    _calc_pad 10 17 = (4, 3) ∧ ¬(_calc_pad 10 17).1 ≤ (_calc_pad 10 17).2 := by
  decide

/-- Sum of an elementwise division is the divided sum. -/
theorem sum_map_div (l : List ℚ) (c : ℚ) : (l.map (fun x => x / c)).sum = l.sum / c := by
  induction l with
  | nil => simp
  | cons x xs ih => simp [ih, add_div]

/-- A list of non-negative rationals containing 1 sums to at least 1. -/
theorem one_le_sum_of_mem (l : List ℚ) (hpos : ∀ x ∈ l, 0 ≤ x)
    (h1 : (1 : ℚ) ∈ l) : 1 ≤ l.sum := by
  induction l with
  | nil => cases h1
  | cons x xs ih =>
    rw [List.sum_cons]
    rcases List.mem_cons.1 h1 with h | h
    · have h0 : 0 ≤ xs.sum :=
        List.sum_nonneg (fun y hy => hpos y (List.mem_cons_of_mem x hy))
      rw [← h]
      linarith
    · have h0 : 0 ≤ x := hpos x (List.mem_cons_self x xs)
      have := ih (fun y hy => hpos y (List.mem_cons_of_mem x hy)) h
      linarith

/-- The two pad amounts for growing a length len to n are non-negative and
complete len to n after truncation to naturals. -/
theorem calc_pad_toNat (len n : ℕ) (h : len ≤ n) :
    ((_calc_pad (len : ℤ) (n : ℤ)).1).toNat + len + ((_calc_pad (len : ℤ) (n : ℤ)).2).toNat = n := by
  simp only [_calc_pad]
  rw [Int.fdiv_eq_ediv _ (by omega : (0 : ℤ) ≤ 2)]
  omega

/-- fft_pad with an explicit target width decomposes into front pad, data,
back pad. -/
theorem fft_pad_decomp (l : List ℚ) (n : ℕ) (mode : PadMode) :
    fft_pad l (some n) mode =
      List.replicate ((_calc_pad (l.length : ℤ) (n : ℤ)).1).toNat
          (match mode with | PadMode.constant => 0 | PadMode.median => npMedian l) ++ l ++
        List.replicate ((_calc_pad (l.length : ℤ) (n : ℤ)).2).toNat
          (match mode with | PadMode.constant => 0 | PadMode.median => npMedian l) := by
  rfl

/-- C1: corrected.  In richardson_lucy the PSF is min-max rescaled to the unit
interval, padded to the image shape with numpy pad mode constant - a zero
fill, not the median fill the claim describes - and then renormalized so the
padded PSF sums to 1: the result sums to 1, has the image length, and its pad
regions hold exact zeros. -/
theorem psf_norm_zero_fill (psf : List ℚ) (n : ℕ) (h0 : psf ≠ [])
    (h1 : listMin psf < listMax psf) (h2 : psf.length ≤ n) :
    (psf_norm psf n).sum = 1 ∧
      (psf_norm psf n).length = n ∧
      (psf_norm psf n).take ((_calc_pad (psf.length : ℤ) (n : ℤ)).1).toNat =
        List.replicate ((_calc_pad (psf.length : ℤ) (n : ℤ)).1).toNat 0 ∧
      (psf_norm psf n).drop (((_calc_pad (psf.length : ℤ) (n : ℤ)).1).toNat + psf.length) =
        List.replicate ((_calc_pad (psf.length : ℤ) (n : ℤ)).2).toNat 0 := by
  have hlen : (scale psf).length = psf.length := by
    rw [scale_eq_map]; exact List.length_map _ _
  have hdec := fft_pad_decomp (scale psf) n PadMode.constant
  rw [hlen] at hdec
  set p2 := ((_calc_pad (psf.length : ℤ) (n : ℤ)).1).toNat with hp2
  set p1 := ((_calc_pad (psf.length : ℤ) (n : ℤ)).2).toNat with hp1
  have hsum0 : (List.replicate p2 (0 : ℚ) ++ scale psf ++ List.replicate p1 (0 : ℚ)).sum
      = (scale psf).sum := by
    simp [List.sum_append, List.sum_replicate]
  have hS : 1 ≤ (scale psf).sum :=
    one_le_sum_of_mem _ (fun x hx => (scale_bounds psf h1 x hx).1)
      (one_mem_scale psf h0 h1)
  have hSne : (fft_pad (scale psf) (some n) PadMode.constant).sum ≠ 0 := by
    rw [hdec, hsum0]
    exact ne_of_gt (lt_of_lt_of_le one_pos hS)
  have hmap : psf_norm psf n =
      List.replicate p2 (0 : ℚ) ++
        (scale psf).map (fun x => x / (fft_pad (scale psf) (some n) PadMode.constant).sum) ++
        List.replicate p1 (0 : ℚ) := by
    show ((fft_pad (scale psf) (some n) PadMode.constant).map
        (fun x => x / (fft_pad (scale psf) (some n) PadMode.constant).sum)) = _
    rw [hdec]
    simp only [List.map_append, List.map_replicate, zero_div]
  constructor
  · show (((fft_pad (scale psf) (some n) PadMode.constant).map
        (fun x => x / (fft_pad (scale psf) (some n) PadMode.constant).sum)).sum) = 1
    rw [sum_map_div, hdec, hsum0]
    exact div_self (ne_of_gt (lt_of_lt_of_le one_pos hS))
  refine ⟨?_, ?_, ?_⟩
  · rw [hmap]
    simp only [List.length_append, List.length_replicate, List.length_map]
    have := calc_pad_toNat psf.length n h2
    omega
  · rw [hmap, List.append_assoc, List.take_append_of_le_length (by simp)]
    simp [List.take_replicate]
  · rw [hmap]
    have hlen2 : (List.replicate p2 (0 : ℚ) ++
        (scale psf).map (fun x => x / (fft_pad (scale psf) (some n) PadMode.constant).sum)).length
        = p2 + psf.length := by
      simp [hlen]
    rw [← hlen2, List.drop_left]

/-- Witness for C1 at the PSF 1, 2 padded to length 4. -/
theorem psf_norm_zero_fill_witness :
    (([1, 2] : List ℚ) ≠ [] ∧ listMin [1, 2] < listMax [1, 2] ∧
        ([1, 2] : List ℚ).length ≤ 4) ∧
      ((psf_norm [1, 2] 4).sum = 1 ∧
        (psf_norm [1, 2] 4).length = 4 ∧
        (psf_norm [1, 2] 4).take ((_calc_pad (([1, 2] : List ℚ).length : ℤ) (4 : ℤ)).1).toNat =
          List.replicate ((_calc_pad (([1, 2] : List ℚ).length : ℤ) (4 : ℤ)).1).toNat 0 ∧
        (psf_norm [1, 2] 4).drop
            (((_calc_pad (([1, 2] : List ℚ).length : ℤ) (4 : ℤ)).1).toNat +
              ([1, 2] : List ℚ).length) =
          List.replicate ((_calc_pad (([1, 2] : List ℚ).length : ℤ) (4 : ℤ)).2).toNat 0) :=
  ⟨⟨by decide, by decide, by decide⟩,
    psf_norm_zero_fill [1, 2] 4 (by decide) (by decide) (by decide)⟩

/-- C1 counterexample: for the PSF 1, 2 padded to length 4, the code's
zero-fill normalization gives 0, 0, 1, 0 while the claimed median-fill
normalization would give 1/4, 0, 1/2, 1/4; the two disagree, so the padding
does not replicate the median. -/
theorem psf_norm_median_counterexample :
    psf_norm [1, 2] 4 = [0, 0, 1, 0] ∧
      psf_norm_median_claim [1, 2] 4 = [1 / 4, 0, 1 / 2, 1 / 4] ∧
      psf_norm [1, 2] 4 ≠ psf_norm_median_claim [1, 2] 4 := by
  have ha : psf_norm [1, 2] 4 = [0, 0, 1, 0] := by
    norm_num [psf_norm, fft_pad, scale, listMin, listMax, _calc_pad]
  have hb : psf_norm_median_claim [1, 2] 4 = [1 / 4, 0, 1 / 2, 1 / 4] := by
    norm_num [psf_norm_median_claim, fft_pad, scale, listMin, listMax, _calc_pad,
      npMedian, sortQ, insertSorted]
  refine ⟨ha, hb, ?_⟩
  rw [ha, hb]
  norm_num

/-- Re-clamping an already clamped array changes nothing. -/
theorem enusure_positive_clampNeg {n : ℕ} (a : Arr n) :
    enusure_positive (clampNeg a) = clampNeg a := by
  funext i
  by_cases h : a i < 0
  · simp [enusure_positive, clampNeg, h]
  · simp [enusure_positive, clampNeg, h]

/-- At prediction order 0 one loop step is exactly one vanilla update: the
differences are never formed (h1 is set to the scalar 0, h2 keeps its zero
value), so the predicted image equals the new estimate. -/
theorem rlStep_order0 {n : ℕ} (blur adj : Arr n → Arr n) (image : Arr n) (i : ℕ)
    (st : RLState n) (hh : st.h2_t = 0) :
    (rlStep blur adj image 0 i st).y_t = clampNeg (st.y_t * adj (image / blur st.y_t)) ∧
      (rlStep blur adj image 0 i st).u_t = some (clampNeg (st.y_t * adj (image / blur st.y_t))) ∧
      (rlStep blur adj image 0 i st).h2_t = 0 := by
  simp [rlStep, hh, enusure_positive_clampNeg]

/-- Invariant of the prediction-order-0 loop: the predicted image, the
estimate and the retained second-order difference all track the vanilla
iteration. -/
theorem rl_order0_invariant {n : ℕ} (blur adj : Arr n → Arr n) (image : Arr n) (i : ℕ) :
    (rlState blur adj image 0 i).y_t = vanillaRL blur adj image i ∧
      (rlState blur adj image 0 i).u_t =
        (if i = 0 then none else some (vanillaRL blur adj image i)) ∧
      (rlState blur adj image 0 i).h2_t = 0 := by
  induction i with
  | zero => exact ⟨rfl, rfl, rfl⟩
  | succ j ih =>
    obtain ⟨hy, _, hh⟩ := ih
    obtain ⟨h1, h2, h3⟩ := rlStep_order0 blur adj image j (rlState blur adj image 0 j) hh
    refine ⟨?_, ?_, h3⟩
    · show (rlStep blur adj image 0 j (rlState blur adj image 0 j)).y_t = _
      rw [h1, hy]
      rfl
    · show (rlStep blur adj image 0 j (rlState blur adj image 0 j)).u_t = _
      rw [h2, hy, if_neg (Nat.succ_ne_zero j)]
      rfl

/-- C2: confirmed.  With prediction_order = 0 the richardson_lucy loop is, at
every iteration, exactly the unaccelerated Richardson-Lucy iteration: the
predicted image y equals the current vanilla estimate at every step, the
stored estimate equals it from the first iteration on, and richardson_lucy
itself returns the K-th vanilla estimate (None for K = 0, where the Python
code returns the unset estimate). -/
theorem rl_order0_eq_vanilla {n : ℕ} (blur adj : Arr n → Arr n) (image : Arr n)
    (i : ℕ) (psf : List ℚ) (K : ℕ) (s : ℚ) :
    (rlState blur adj image 0 i).y_t = vanillaRL blur adj image i ∧
      (rlState blur adj image 0 i).u_t =
        (if i = 0 then none else some (vanillaRL blur adj image i)) ∧
      richardson_lucy image psf K false 0 s =
        (if K = 0 then none
          else some (vanillaRL (otf_blur n psf s) (otf_adj n psf s) image K)) := by
  refine ⟨(rl_order0_invariant blur adj image i).1,
    (rl_order0_invariant blur adj image i).2.1, ?_⟩
  have h := (rl_order0_invariant (otf_blur n psf s) (otf_adj n psf s) image K).2.1
  show ((rlState (otf_blur n psf s) (otf_adj n psf s) image 0 K).u_t).map
      (fun u => if false then clipPM u else u) = _
  rw [h]
  cases K with
  | zero => rfl
  | succ k => simp

/-- The residual stored by iteration j is exactly g(j). -/
theorem rl_g_tm1_some {n : ℕ} (blur adj : Arr n → Arr n) (image : Arr n)
    (order j : ℕ) :
    (rlState blur adj image order (j + 1)).g_tm1 =
      some (gResid blur adj image order j) := rfl

/-- C3: corrected.  In the loop, alpha is 0 for the first two iterations; for
every iteration i with i > 1 it is dot(g(i), g(i-1)) / dot(g(i-1), g(i-1))
over the flattened residuals - the residual of the current iteration against
the previous one, not g(i-1) against g(i-2) as the claim stated - clamped to
the unit interval.  Over rationals a vanishing denominator forces a vanishing
numerator, and the quotient is the junk value 0, matching the source's reset
of the non-finite 0/0 alpha to 0. -/
theorem rl_alpha_two_recent {n : ℕ} (blur adj : Arr n → Arr n) (image : Arr n)
    (order i : ℕ) :
    (rlState blur adj image order (i + 1)).alpha =
      (if 1 < i then
        max (min (dotA (gResid blur adj image order i) (gResid blur adj image order (i - 1)) /
            dotA (gResid blur adj image order (i - 1)) (gResid blur adj image order (i - 1))) 1) 0
      else 0) := by
  cases i with
  | zero => rfl
  | succ j =>
    show (rlStep blur adj image order (j + 1) (rlState blur adj image order (j + 1))).alpha = _
    simp only [rlStep, rl_g_tm1_some, Option.getD_some, Nat.add_sub_cancel]
    rfl

/-- C3 counterexample: a concrete three-iteration run of the loop (one pixel,
blur adds 1, identity adjoint, image 4).  At iteration i = 2 the computed
alpha is 4/17, built from the residuals of iterations 2 and 1, while the
claimed formula over the residuals of iterations i-1 = 1 and i-2 = 0 gives
4/21. -/
theorem rl_alpha_claim_counterexample :
    (rlState blurP1 adjId img4 2 3).alpha = 4 / 17 ∧
      max (min (dotA (gResid blurP1 adjId img4 2 1) (gResid blurP1 adjId img4 2 0) /
          dotA (gResid blurP1 adjId img4 2 0) (gResid blurP1 adjId img4 2 0)) 1) 0 = 4 / 21 ∧
      (4 / 17 : ℚ) ≠ 4 / 21 := by
  refine ⟨?_, ?_, by norm_num⟩
  · norm_num [rlState, rlStep, rlInit, clampNeg, enusure_positive, dotA, blurP1, adjId,
      img4, Fin.sum_univ_one, min_def, max_def]
  · norm_num [gResid, rlState, rlStep, rlInit, clampNeg, enusure_positive, dotA, blurP1,
      adjId, img4, Fin.sum_univ_one, min_def, max_def]

/-! The impulse-PSF pipeline: richardson_lucy with an identity kernel. -/

theorem impulseL_length (n : ℕ) : (impulseL n).length = n := by
  simp [impulseL]

theorem impulseL_mem (n : ℕ) (x : ℚ) (h : x ∈ impulseL n) : x = 0 ∨ x = 1 := by
  obtain ⟨k, _, rfl⟩ := List.mem_map.1 h
  by_cases hk : k = n / 2
  · right; simp [hk]
  · left; simp [hk]

theorem zero_mem_impulseL (n : ℕ) (hn : 2 ≤ n) : (0 : ℚ) ∈ impulseL n :=
  List.mem_map.2 ⟨0, List.mem_range.2 (by omega),
    by rw [if_neg (by omega : ¬(0 : ℕ) = n / 2)]⟩

theorem one_mem_impulseL (n : ℕ) (hn : 1 ≤ n) : (1 : ℚ) ∈ impulseL n :=
  List.mem_map.2 ⟨n / 2, List.mem_range.2 (by omega), by rw [if_pos rfl]⟩

theorem impulseL_ne_nil (n : ℕ) (hn : 1 ≤ n) : impulseL n ≠ [] := by
  intro h
  have h2 := impulseL_length n
  rw [h] at h2
  simp at h2
  omega

theorem listMin_impulseL (n : ℕ) (hn : 2 ≤ n) : listMin (impulseL n) = 0 := by
  refine le_antisymm (listMin_le_of_mem _ _ (zero_mem_impulseL n hn)) ?_
  rcases impulseL_mem n _ (listMin_mem _ (impulseL_ne_nil n (by omega))) with h | h <;> rw [h]
  exact zero_le_one

theorem listMax_impulseL (n : ℕ) (hn : 2 ≤ n) : listMax (impulseL n) = 1 := by
  refine le_antisymm ?_ (le_listMax_of_mem _ _ (one_mem_impulseL n (by omega)))
  rcases impulseL_mem n _ (listMax_mem _ (impulseL_ne_nil n (by omega))) with h | h <;> rw [h]
  exact zero_le_one

theorem scale_impulseL (n : ℕ) (hn : 2 ≤ n) : scale (impulseL n) = impulseL n := by
  rw [scale_eq_map, listMin_impulseL n hn, listMax_impulseL n hn]
  have h2 : ∀ x ∈ impulseL n, (x - 0) / (1 - 0) = id x := fun x _ => by norm_num
  rw [List.map_congr_left h2, List.map_id]

theorem sum_indicator_range_of_le (n j : ℕ) (h : n ≤ j) :
    ((List.range n).map (fun k => if k = j then (1 : ℚ) else 0)).sum = 0 := by
  induction n with
  | zero => rfl
  | succ m ih =>
    rw [List.range_succ, List.map_append, List.sum_append, ih (by omega)]
    simp [show ¬m = j by omega]

theorem sum_indicator_range_of_lt (n j : ℕ) (h : j < n) :
    ((List.range n).map (fun k => if k = j then (1 : ℚ) else 0)).sum = 1 := by
  induction n with
  | zero => omega
  | succ m ih =>
    rw [List.range_succ, List.map_append, List.sum_append]
    by_cases hj : j < m
    · rw [ih hj]
      simp [show ¬m = j by omega]
    · have hm : j = m := by omega
      rw [sum_indicator_range_of_le m j (by omega)]
      simp [hm]

theorem impulseL_sum (n : ℕ) (hn : 1 ≤ n) : (impulseL n).sum = 1 := by
  unfold impulseL
  exact sum_indicator_range_of_lt n (n / 2) (by omega)

theorem calc_pad_self (m : ℕ) : _calc_pad (m : ℤ) (m : ℤ) = (0, 0) := by
  simp only [_calc_pad, sub_self]
  rfl

theorem fft_pad_self (l : List ℚ) (n : ℕ) (mode : PadMode) (h : l.length = n) :
    fft_pad l (some n) mode = l := by
  rw [fft_pad_decomp, h, calc_pad_self]
  simp

/-- Normalizing a centred unit impulse changes nothing: it already sums to 1
and needs no padding. -/
theorem psf_norm_impulseL (n : ℕ) (hn : 2 ≤ n) : psf_norm (impulseL n) n = impulseL n := by
  show (fft_pad (scale (impulseL n)) (some n) PadMode.constant).map
      (fun x => x / (fft_pad (scale (impulseL n)) (some n) PadMode.constant).sum) = _
  rw [scale_impulseL n hn, fft_pad_self _ n _ (impulseL_length n), impulseL_sum n (by omega)]
  simp

theorem impulseL_getD (n m : ℕ) (h : m < n) :
    (impulseL n).getD m 0 = if m = n / 2 then 1 else 0 := by
  unfold impulseL
  rw [List.getD_eq_getElem?_getD, List.getElem?_map, List.getElem?_range h]
  rfl

/-- After the inverse shift, the centred impulse becomes the delta at index 0,
the transparent OTF. -/
theorem psfs_impulseL (n : ℕ) [NeZero n] (hn : 2 ≤ n) :
    ifftshiftA (fun i : Fin n => (psf_norm (impulseL n) n).getD i.val 0) =
      fun k : Fin n => if k = 0 then (1 : ℚ) else 0 := by
  funext k
  show (psf_norm (impulseL n) n).getD ((k.val + n / 2) % n) 0 = _
  rw [psf_norm_impulseL n hn, impulseL_getD n _ (Nat.mod_lt _ k.pos)]
  have hdiv : n / 2 < n := Nat.div_lt_self (by omega) (by omega)
  have hiff : (k.val + n / 2) % n = n / 2 ↔ k = 0 := by
    constructor
    · intro hmod
      apply Fin.ext
      simp only [Fin.val_zero]
      by_cases hlt : k.val + n / 2 < n
      · rw [Nat.mod_eq_of_lt hlt] at hmod
        omega
      · have hk := k.isLt
        rw [Nat.mod_eq_sub_mod (le_of_not_lt hlt), Nat.mod_eq_of_lt (by omega)] at hmod
        omega
    · intro hk
      subst hk
      simp only [Fin.val_zero, zero_add]
      exact Nat.mod_eq_of_lt hdiv
  exact if_congr hiff rfl rfl

theorem cconvA_delta (n : ℕ) [NeZero n] (y : Arr n) :
    cconvA (fun k : Fin n => if k = 0 then (1 : ℚ) else 0) y = y := by
  funext i
  show (∑ k : Fin n, (if k = 0 then (1 : ℚ) else 0) * y (i - k)) = y i
  have h : ∀ k : Fin n, (if k = 0 then (1 : ℚ) else 0) * y (i - k) =
      (if k = 0 then y (i - k) else 0) := by
    intro k
    by_cases hk : k = 0 <;> simp [hk]
  rw [Finset.sum_congr rfl (fun k _ => h k),
    Finset.sum_ite_eq' Finset.univ 0 (fun k => y (i - k))]
  simp

theorem ccorrA_delta (n : ℕ) [NeZero n] (y : Arr n) :
    ccorrA (fun k : Fin n => if k = 0 then (1 : ℚ) else 0) y = y := by
  funext i
  show (∑ k : Fin n, (if k = 0 then (1 : ℚ) else 0) * y (i + k)) = y i
  have h : ∀ k : Fin n, (if k = 0 then (1 : ℚ) else 0) * y (i + k) =
      (if k = 0 then y (i + k) else 0) := by
    intro k
    by_cases hk : k = 0 <;> simp [hk]
  rw [Finset.sum_congr rfl (fun k _ => h k),
    Finset.sum_ite_eq' Finset.univ 0 (fun k => y (i + k))]
  simp

theorem otf_blur_impulseL (n : ℕ) [NeZero n] (hn : 2 ≤ n) (s : ℚ) (y : Arr n) :
    otf_blur n (impulseL n) s y = (1 / s) • y := by
  show (1 / s) • cconvA (ifftshiftA (fun i : Fin n => (psf_norm (impulseL n) n).getD i.val 0)) y = _
  rw [psfs_impulseL n hn, cconvA_delta]

theorem otf_adj_impulseL (n : ℕ) [NeZero n] (hn : 2 ≤ n) (s : ℚ) (y : Arr n) :
    otf_adj n (impulseL n) s y = (1 / s) • y := by
  show (1 / s) • ccorrA (ifftshiftA (fun i : Fin n => (psf_norm (impulseL n) n).getD i.val 0)) y = _
  rw [psfs_impulseL n hn, ccorrA_delta]

theorem dotA_zero_left {n : ℕ} (b : Arr n) : dotA 0 b = 0 := by
  simp [dotA]

theorem enusure_positive_of_nonneg {n : ℕ} (a : Arr n) (h : ∀ i, 0 ≤ a i) :
    enusure_positive a = a :=
  funext fun i => if_neg (not_lt.2 (h i))

/-- With the transparent OTF the Richardson-Lucy update fixes the image: the
unitary scale cancels between the forward and adjoint applications, and pixels
where the image vanishes stay zero (the float code forms 0/0 there). -/
theorem rl_impulse_update (n : ℕ) [NeZero n] (hn : 2 ≤ n) (image : Arr n)
    (himg : ∀ i, 0 ≤ image i) (s : ℚ) (hs : s ≠ 0) :
    clampNeg (image * otf_adj n (impulseL n) s (image / otf_blur n (impulseL n) s image)) =
      image := by
  rw [otf_blur_impulseL n hn, otf_adj_impulseL n hn]
  funext i
  simp only [clampNeg, Pi.mul_apply, Pi.smul_apply, Pi.div_apply, smul_eq_mul]
  by_cases h0 : image i = 0
  · simp [h0]
  · have : image i * (1 / s * (image i / (1 / s * image i))) = image i := by
      field_simp
    rw [this, if_neg (not_lt.2 (himg i))]

/-- The loop with the impulse PSF keeps both the predicted image and the
estimate at the input image forever. -/
theorem rl_impulse_invariant (n : ℕ) [NeZero n] (hn : 2 ≤ n) (image : Arr n)
    (himg : ∀ i, 0 ≤ image i) (s : ℚ) (hs : s ≠ 0) (order : ℕ) (i : ℕ) :
    (rlState (otf_blur n (impulseL n) s) (otf_adj n (impulseL n) s) image order i).y_t = image ∧
      (rlState (otf_blur n (impulseL n) s) (otf_adj n (impulseL n) s) image order i).u_t =
        (if i = 0 then none else some image) := by
  induction i with
  | zero => exact ⟨rfl, rfl⟩
  | succ j ih =>
    obtain ⟨hy, _⟩ := ih
    have hupd := rl_impulse_update n hn image himg s hs
    have hstep :
        (rlStep (otf_blur n (impulseL n) s) (otf_adj n (impulseL n) s) image order j
            (rlState (otf_blur n (impulseL n) s) (otf_adj n (impulseL n) s) image order j)).y_t
          = image ∧
        (rlStep (otf_blur n (impulseL n) s) (otf_adj n (impulseL n) s) image order j
            (rlState (otf_blur n (impulseL n) s) (otf_adj n (impulseL n) s) image order j)).u_t
          = some image := by
      simp only [rlStep, hy, hupd, sub_self, dotA_zero_left, zero_div]
      norm_num
      exact enusure_positive_of_nonneg image himg
    exact ⟨hstep.1, by rw [show (rlState (otf_blur n (impulseL n) s)
      (otf_adj n (impulseL n) s) image order (j + 1)).u_t = _ from hstep.2,
      if_neg (Nat.succ_ne_zero j)]⟩

/-- C4: confirmed.  For every non-negative image, every positive iteration
count and every prediction order, richardson_lucy with a PSF equal to a
centred unit impulse (the identity kernel, same length as the image, length
at least 2 so the min-max scale is non-degenerate) and a nonzero unitary
scale returns the input image unchanged. -/
theorem richardson_lucy_impulse (n : ℕ) [NeZero n] (image : Arr n) (K order : ℕ)
    (s : ℚ) (hn : 2 ≤ n) (himg : ∀ i, 0 ≤ image i) (hs : s ≠ 0) (hK : 1 ≤ K) :
    richardson_lucy image (impulseL n) K false order s = some image := by
  obtain ⟨_, hu⟩ := rl_impulse_invariant n hn image himg s hs order K
  show ((rlState (otf_blur n (impulseL n) s) (otf_adj n (impulseL n) s) image order K).u_t).map
      (fun u => if false then clipPM u else u) = some image
  rw [hu, if_neg (by omega : ¬K = 0)]
  rfl

/-- Witness for C4: a two-pixel non-negative image, one iteration, the default
prediction order 2, unitary scale 1. -/
theorem richardson_lucy_impulse_witness :
    (2 ≤ 2 ∧ (∀ i, 0 ≤ img2 i) ∧ (1 : ℚ) ≠ 0 ∧ 1 ≤ 1) ∧
      richardson_lucy img2 (impulseL 2) 1 false 2 1 = some img2 :=
  ⟨⟨by decide, by decide, by decide, by decide⟩,
    richardson_lucy_impulse 2 img2 1 2 1 (by decide) (by decide) (by decide) (by decide)⟩

/-! The fftconvolve guard chain and richardson_lucy rank precondition. -/

/-- C5: confirmed.  richardson_lucy fails with a dimension-mismatch error
whenever image and PSF have differing rank, and fftconvolve fails with a
dimension-mismatch error whenever its operands have differing rank; both
errors are surfaced immediately by the guards, before any computation, with no
recovery. -/
theorem dim_mismatch_errors (core : NDArr → NDArr → NDArr) (in1 in2 : NDArr)
    (mode : String) (img psf : NDArr)
    (h1 : in1.ndim ≠ in2.ndim) (h2 : img.ndim ≠ psf.ndim) :
    (∃ e, fftconvolve core in1 in2 mode = Except.error e) ∧
      (∃ e, richardson_lucy_check img psf = Except.error e) := by
  constructor
  · have hc : ¬(in1.ndim = 0 ∧ in2.ndim = 0) := fun hc => h1 (hc.1.trans hc.2.symm)
    exact ⟨_, by unfold fftconvolve; rw [if_neg hc, if_pos h1]⟩
  · exact ⟨_, by unfold richardson_lucy_check; rw [if_neg (fun hc => h2 hc.symm)]⟩

/-- Witness for C5: a rank-1 against a rank-0 convolution operand, and a
rank-2 image against a rank-1 PSF. -/
theorem dim_mismatch_errors_witness :
    ((⟨[2], [1, 2]⟩ : NDArr).ndim ≠ (⟨[], [3]⟩ : NDArr).ndim ∧
        (⟨[2, 2], [1, 2, 3, 4]⟩ : NDArr).ndim ≠ (⟨[2], [1, 2]⟩ : NDArr).ndim) ∧
      ((∃ e, fftconvolve (fun x _ => x) ⟨[2], [1, 2]⟩ ⟨[], [3]⟩ "full" = Except.error e) ∧
        (∃ e, richardson_lucy_check ⟨[2, 2], [1, 2, 3, 4]⟩ ⟨[2], [1, 2]⟩ = Except.error e)) :=
  ⟨⟨by decide, by decide⟩,
    dim_mismatch_errors (fun x _ => x) ⟨[2], [1, 2]⟩ ⟨[], [3]⟩ "full"
      ⟨[2, 2], [1, 2, 3, 4]⟩ ⟨[2], [1, 2]⟩ (by decide) (by decide)⟩

/-- C10: corrected.  Provided the two operands have the same rank, an empty
operand makes fftconvolve return an empty array without raising, for every
mode string including unrecognized ones, because the empty-input check runs
before any mode validation.  (The original claim omitted the rank condition;
the rank guard runs before the empty-input check, see the counterexample.) -/
theorem fftconvolve_empty_ok (core : NDArr → NDArr → NDArr) (in1 in2 : NDArr)
    (mode : String) (hnd : in1.ndim = in2.ndim) (hsz : in1.size = 0 ∨ in2.size = 0) :
    fftconvolve core in1 in2 mode = Except.ok ⟨[0], []⟩ := by
  have hc : ¬(in1.ndim = 0 ∧ in2.ndim = 0) := by
    rintro ⟨ha, hb⟩
    rcases hsz with h | h
    · have hsh : in1.shape = [] := List.length_eq_zero.1 ha
      rw [NDArr.size, hsh] at h
      simp at h
    · have hsh : in2.shape = [] := List.length_eq_zero.1 hb
      rw [NDArr.size, hsh] at h
      simp at h
  unfold fftconvolve
  rw [if_neg hc, if_neg (fun hne => hne hnd), if_pos hsz]

/-- Witness for C10: an empty rank-1 operand against a rank-1 operand, with an
unrecognized mode string. -/
theorem fftconvolve_empty_ok_witness :
    ((⟨[0], []⟩ : NDArr).ndim = (⟨[3], [1, 2, 3]⟩ : NDArr).ndim ∧
        ((⟨[0], []⟩ : NDArr).size = 0 ∨ (⟨[3], [1, 2, 3]⟩ : NDArr).size = 0)) ∧
      fftconvolve (fun x _ => x) ⟨[0], []⟩ ⟨[3], [1, 2, 3]⟩ "unknownmode" =
        Except.ok ⟨[0], []⟩ :=
  ⟨⟨by decide, Or.inl (by decide)⟩,
    fftconvolve_empty_ok (fun x _ => x) ⟨[0], []⟩ ⟨[3], [1, 2, 3]⟩ "unknownmode"
      (by decide) (Or.inl (by decide))⟩

/-- C10 counterexample: the first operand is empty (size 0, rank 1) but the
second is a rank-0 scalar, and fftconvolve raises the dimensionality error
instead of returning an empty array. -/
theorem fftconvolve_empty_mismatch_counterexample :
    (⟨[0], []⟩ : NDArr).size = 0 ∧
      fftconvolve (fun x _ => x) ⟨[0], []⟩ ⟨[], [5]⟩ "full" =
        Except.error ("in1 and in2 should have the same dimensionality") :=
  ⟨rfl, rfl⟩

/-! The fftconvolve full-mode output. -/

theorem next_fast_len_ge (n : ℕ) : n ≤ next_fast_len n := by
  unfold next_fast_len
  cases hfind : (List.range' n (n + 1)).find? is5smooth with
  | none => exact le_refl n
  | some m =>
    show n ≤ m
    have hm := List.mem_of_find?_eq_some hfind
    have := List.mem_range'_1.1 hm
    omega

theorem fft_pad_length (l : List ℚ) (m : ℕ) (mode : PadMode) (h : l.length ≤ m) :
    (fft_pad l (some m) mode).length = m := by
  rw [fft_pad_decomp]
  simp only [List.length_append, List.length_replicate]
  have := calc_pad_toNat l.length m h
  omega

theorem ifftshiftL_length (l : List ℚ) : (ifftshiftL l).length = l.length := by
  simp [ifftshiftL]

theorem cconvL_length (a b : List ℚ) : (cconvL a b).length = a.length := by
  simp [cconvL]

/-- For non-empty rank-1 operands, full mode returns the spectral core's
result unmodified. -/
theorem fftconvolve1_full (a b : List ℚ) (ha : a ≠ []) (hb : b ≠ []) :
    fftconvolve1 a b "full" = Except.ok (core1 ⟨[a.length], a⟩ ⟨[b.length], b⟩) := by
  have ha' : a.length ≠ 0 := fun h => ha (List.length_eq_zero.1 h)
  have hb' : b.length ≠ 0 := fun h => hb (List.length_eq_zero.1 h)
  unfold fftconvolve1 fftconvolve
  rw [if_neg (by simp [NDArr.ndim]), if_neg (by simp [NDArr.ndim]),
    if_neg (by simp [NDArr.size, ha', hb'])]
  have hswap : _inputs_swap_needed "full" [a.length] [b.length] = false := rfl
  simp only [hswap, Bool.false_eq_true, if_false]
  simp

/-- The spectral core keeps the shape fslice dictates: the elementwise maximum
of the operand extents, not their full convolution size. -/
theorem core1_data_length (a b : List ℚ) :
    (core1 ⟨[a.length], a⟩ ⟨[b.length], b⟩).data.length = max a.length b.length ∧
      (core1 ⟨[a.length], a⟩ ⟨[b.length], b⟩).shape = [max a.length b.length] := by
  have hsh : max a.length b.length ≤ next_fast_len (max a.length b.length) :=
    next_fast_len_ge _
  constructor
  · show ((cconvL (fft_pad a (some (next_fast_len (max a.length b.length))) PadMode.median)
      (ifftshiftL (fft_pad b (some (next_fast_len (max a.length b.length))) PadMode.constant))).take
      (max a.length b.length)).length = _
    rw [List.length_take, cconvL_length, fft_pad_length _ _ _ (le_trans (le_max_left _ _) hsh)]
    omega
  · rfl

/-- C6: corrected.  For every pair of non-empty same-rank (rank-1) real
arrays, fftconvolve in full mode returns an array of shape the elementwise
maximum of the two operand shapes - the operands are padded only to the common
fast FFT size and the result is cut by fslice - not the full linear
convolution of shape s1 + s2 - 1 the claim describes. -/
theorem fftconvolve_full_shape (a b : List ℚ) (ha : a ≠ []) (hb : b ≠ []) :
    ∃ d : List ℚ, fftconvolve1 a b "full" = Except.ok ⟨[max a.length b.length], d⟩ ∧
      d.length = max a.length b.length := by
  obtain ⟨hlen, hshape⟩ := core1_data_length a b
  refine ⟨(core1 ⟨[a.length], a⟩ ⟨[b.length], b⟩).data, ?_, hlen⟩
  rw [fftconvolve1_full a b ha hb,
    show core1 ⟨[a.length], a⟩ ⟨[b.length], b⟩ =
      ⟨[max a.length b.length], (core1 ⟨[a.length], a⟩ ⟨[b.length], b⟩).data⟩ from
        by rw [← hshape]]

/-- Witness for C6 at two concrete operands of lengths 2 and 3. -/
theorem fftconvolve_full_shape_witness :
    (([1, 1] : List ℚ) ≠ [] ∧ ([2, 3, 4] : List ℚ) ≠ []) ∧
      (∃ d : List ℚ, fftconvolve1 [1, 1] [2, 3, 4] "full" =
          Except.ok ⟨[max ([1, 1] : List ℚ).length ([2, 3, 4] : List ℚ).length], d⟩ ∧
        d.length = max ([1, 1] : List ℚ).length ([2, 3, 4] : List ℚ).length) :=
  ⟨⟨by decide, by decide⟩, fftconvolve_full_shape [1, 1] [2, 3, 4] (by decide) (by decide)⟩

/-- C6 counterexample: convolving 1, 1 with 1, 1 in full mode yields the
length-2 wrapped result 2, 2, while direct full linear convolution yields the
length-3 result 1, 2, 1; fftconvolve does not reproduce it. -/
theorem fftconvolve_full_not_direct_counterexample :
    fftconvolve1 [1, 1] [1, 1] "full" = Except.ok ⟨[2], [2, 2]⟩ ∧
      directConvFull [1, 1] [1, 1] = [1, 2, 1] ∧
      fftconvolve1 [1, 1] [1, 1] "full" ≠ Except.ok ⟨[3], directConvFull [1, 1] [1, 1]⟩ := by
  have h2 : next_fast_len 2 = 2 := rfl
  have h3 : _calc_pad (2 : ℤ) (2 : ℤ) = (0, 0) := rfl
  have hfull : fftconvolve1 [1, 1] [1, 1] "full" = Except.ok ⟨[2], [2, 2]⟩ := by
    rw [fftconvolve1_full [1, 1] [1, 1] (by decide) (by decide)]
    norm_num [core1, h2, fft_pad, h3, ifftshiftL, cconvL, npMedian, sortQ, insertSorted,
      List.range_succ, List.range_zero]
  have hdir : directConvFull [1, 1] [1, 1] = [1, 2, 1] := by
    norm_num [directConvFull, List.range_succ, List.range_zero]
  refine ⟨hfull, hdir, ?_⟩
  rw [hfull, hdir]
  simp

/-! The radial profile of a constant array of ones. -/

theorem getD_map_range (nb b : ℕ) (f : ℕ → ℚ) (h : b < nb) :
    ((List.range nb).map f).getD b 0 = f b := by
  rw [List.getD_eq_getElem?_getD, List.getElem?_map, List.getElem?_range h]
  rfl

/-- Summing ones over a bin counts its pixels. -/
theorem binSum_ones (h w : ℕ) (y0 x0 : ℤ) (b : ℕ) :
    binSum h w (fun _ _ => 1) y0 x0 b = (binCount h w y0 x0 b : ℚ) := by
  unfold binSum binCount
  rw [List.map_const', List.sum_replicate, nsmul_eq_mul, mul_one]

theorem ratSqrt_zero : ratSqrt 0 = 0 := by
  norm_num [ratSqrt, natSqrt, List.range_succ, List.range_zero]

/-- C9: corrected.  For a 2-D constant array of ones, any integer centre and
binsize 1, radial_profile returns mean 1 and standard deviation 0 at every
bin that contains at least one pixel.  (The original claim said every bin; a
centre far from the array leaves low bins empty, where the unguarded 0/0
produces junk instead of 1, see the counterexample.) -/
theorem radial_profile_ones (h w : ℕ) (y0 x0 : ℤ) (b : ℕ)
    (hb : b < numBins h w y0 x0) (hc : binCount h w y0 x0 b ≠ 0) :
    ((radial_profile h w (fun _ _ => 1) y0 x0).1).getD b 0 = 1 ∧
      ((radial_profile h w (fun _ _ => 1) y0 x0).2).getD b 0 = 0 := by
  have hcQ : (binCount h w y0 x0 b : ℚ) ≠ 0 := Nat.cast_ne_zero.2 hc
  constructor
  · show ((List.range (numBins h w y0 x0)).map (fun b =>
        binSum h w (fun _ _ => 1) y0 x0 b / (binCount h w y0 x0 b : ℚ))).getD b 0 = 1
    rw [getD_map_range _ _ _ hb, binSum_ones]
    exact div_self hcQ
  · show ((List.range (numBins h w y0 x0)).map (fun b =>
        ratSqrt (binSum h w (fun y x => (1 : ℚ) ^ 2) y0 x0 b / (binCount h w y0 x0 b : ℚ)
          - (binSum h w (fun _ _ => 1) y0 x0 b / (binCount h w y0 x0 b : ℚ)) ^ 2))).getD b 0 = 0
    rw [getD_map_range _ _ _ hb]
    have h1 : binSum h w (fun y x => (1 : ℚ) ^ 2) y0 x0 b = (binCount h w y0 x0 b : ℚ) := by
      have h2 : (fun y x : ℕ => (1 : ℚ) ^ 2) = (fun _ _ : ℕ => (1 : ℚ)) := by
        funext y x
        norm_num
      rw [h2, binSum_ones]
    rw [h1, binSum_ones, div_self hcQ]
    norm_num [ratSqrt_zero]

/-- Witness for C9: the 3 by 3 array of ones about the corner centre (0, 0),
at bin 1. -/
theorem radial_profile_ones_witness :
    (1 < numBins 3 3 0 0 ∧ binCount 3 3 0 0 1 ≠ 0) ∧
      (((radial_profile 3 3 (fun _ _ => 1) 0 0).1).getD 1 0 = 1 ∧
        ((radial_profile 3 3 (fun _ _ => 1) 0 0).2).getD 1 0 = 0) :=
  ⟨⟨by decide, by decide⟩, radial_profile_ones 3 3 0 0 1 (by decide) (by decide)⟩

/-- C9 counterexample: a 1 by 1 array of ones about the centre (0, 5) at
binsize 1 has its single pixel in bin 5; bin 0 is empty and its mean is the
0/0 junk value (NaN in floats, 0 over rationals), not 1. -/
theorem radial_profile_empty_bin_counterexample :
    binCount 1 1 0 5 0 = 0 ∧
      ((radial_profile 1 1 (fun _ _ => 1) 0 5).1).getD 0 0 = 0 ∧
      ((radial_profile 1 1 (fun _ _ => 1) 0 5).1).getD 0 0 ≠ 1 := by
  have hbc : binCount 1 1 0 5 0 = 0 := by decide
  have hbs : binSum 1 1 (fun _ _ => 1) 0 5 0 = 0 := by decide
  have hv : ((radial_profile 1 1 (fun _ _ => 1) 0 5).1).getD 0 0 = 0 := by
    show ((List.range (numBins 1 1 0 5)).map (fun b =>
        binSum 1 1 (fun _ _ => 1) 0 5 b / (binCount 1 1 0 5 b : ℚ))).getD 0 0 = 0
    rw [getD_map_range _ _ _ (by decide), hbs, hbc]
    norm_num
  exact ⟨hbc, hv, by rw [hv]; norm_num⟩
